import Mathlib

/-!
Verification development for the passive-radar signal chain: shallow embeddings of the
preprocessing filters, the CAF range-Doppler engine, the 2-D CA-CFAR detector, the
morphological cleanup, the DBSCAN clusterer and the Kalman/Hungarian tracker, together
with theorems settling the specification claims about them.
-/

namespace PassiveRadar

/-! ### Preprocessing filters — `passive_radar/preprocess/filters.py` -/

/-- Embedding of `mti_filter` (1-D case): `out = np.zeros_like(data);
out[delay:] = data[delay:] - data[:-delay]`.  The output is the zero prefix of
length `delay` (clipped to the data length) followed by the elementwise
difference of `data[delay:]` and `data[:-delay]`. -/
def mti_filter (data : List ℚ) (delay : ℕ) : List ℚ :=
  List.replicate (min delay data.length) 0 ++
    List.zipWith (fun a b => a - b) (data.drop delay) (data.take (data.length - delay))

theorem mti_filter_length (data : List ℚ) (delay : ℕ) :
    (mti_filter data delay).length = data.length := by
  simp only [mti_filter, List.length_append, List.length_replicate, List.length_zipWith,
    List.length_drop, List.length_take]
  omega

theorem mti_filter_getD (data : List ℚ) (delay : ℕ) (i : ℕ) (hi : i < data.length) :
    (mti_filter data delay).getD i 0 =
      if delay ≤ i then data.getD i 0 - data.getD (i - delay) 0 else 0 := by
  rw [mti_filter, List.getD_eq_getElem?_getD]
  by_cases hlt : i < min delay data.length
  · rw [List.getElem?_append_left (by simpa using hlt)]
    have hid : ¬ delay ≤ i := by omega
    simp [List.getElem?_replicate, hlt, hid]
  · have hmin : min delay data.length ≤ i := by omega
    have hdle : delay ≤ i := by omega
    have hdlen : delay ≤ data.length := by omega
    rw [List.getElem?_append_right (by simpa using hmin)]
    have hmind : min delay data.length = delay := by omega
    rw [List.length_replicate, hmind, List.getElem?_zipWith, List.getElem?_drop,
      List.getElem?_take]
    have h1 : delay + (i - delay) = i := by omega
    have h2 : i - delay < data.length - delay := by omega
    rw [h1, if_pos h2, List.getElem?_eq_getElem hi,
      List.getElem?_eq_getElem (show i - delay < data.length by omega)]
    simp only [Option.getD_some, if_pos hdle]
    rw [List.getD_eq_getElem?_getD, List.getD_eq_getElem?_getD,
      List.getElem?_eq_getElem hi,
      List.getElem?_eq_getElem (show i - delay < data.length by omega)]
    rfl

/-- **C9.** For every 1-D input and every delay Δ ≥ 1, the MTI filter keeps the
shape, outputs `x[n] - x[n-Δ]` for `n ≥ Δ` and `0` for `n < Δ`; on a constant
signal every output sample with index ≥ Δ is zero. -/
theorem C9_mti_filter (data : List ℚ) (delay : ℕ) (hd : 1 ≤ delay) :
    (mti_filter data delay).length = data.length ∧
    (∀ i, i < data.length →
        (mti_filter data delay).getD i 0 =
          if delay ≤ i then data.getD i 0 - data.getD (i - delay) 0 else 0) ∧
    (∀ (c : ℚ) (n i : ℕ), delay ≤ i →
        (mti_filter (List.replicate n c) delay).getD i 0 = 0) := by
  refine ⟨mti_filter_length data delay, fun i hi => mti_filter_getD data delay i hi, ?_⟩
  intro c n i hdi
  by_cases hin : i < n
  · rw [mti_filter_getD (List.replicate n c) delay i (by simpa using hin), if_pos hdi]
    rw [List.getD_eq_getElem?_getD, List.getD_eq_getElem?_getD,
      List.getElem?_replicate, List.getElem?_replicate,
      if_pos hin, if_pos (show i - delay < n by omega)]
    simp
  · rw [List.getD_eq_getElem?_getD, List.getElem?_eq_none]
    · rfl
    · rw [mti_filter_length]
      simpa using hin

theorem C9_mti_filter_witness :
    (mti_filter [3, 5, 2] 1).getD 2 0 = 2 - 5 := by
  have h := (C9_mti_filter [3, 5, 2] 1 (by norm_num)).2.1 2 (by norm_num)
  simpa using h

/-- |z|² of a complex sample represented as a pair (re, im). -/
def absSq (z : ℚ × ℚ) : ℚ := z.1 ^ 2 + z.2 ^ 2

/-- `np.mean(np.abs(data) ** 2)`; the mean of the empty array is taken to be 0
(division by a zero length). -/
def meanAbsSq (data : List (ℚ × ℚ)) : ℚ := (data.map absSq).sum / data.length

/-- The divisor `np.sqrt(np.mean(np.abs(data) ** 2) + eps)` of `normalize`,
with the default ε = 1e-9. -/
noncomputable def normPower (data : List (ℚ × ℚ)) : ℝ :=
  Real.sqrt ((meanAbsSq data : ℝ) + 1e-9)

/-- Embedding of `normalize` (filters.py): `data / power`, componentwise on
complex samples. -/
noncomputable def normalize (data : List (ℚ × ℚ)) : List (ℝ × ℝ) :=
  data.map fun z => ((z.1 : ℝ) / normPower data, (z.2 : ℝ) / normPower data)

theorem meanAbsSq_nonneg (data : List (ℚ × ℚ)) : 0 ≤ meanAbsSq data := by
  apply div_nonneg
  · apply List.sum_nonneg
    intro x hx
    rcases List.mem_map.mp hx with ⟨z, _, rfl⟩
    have := sq_nonneg z.1
    have := sq_nonneg z.2
    simp only [absSq]
    positivity
  · positivity

/-- **C10.** `normalize` is total: its divisor √(mean|x|² + ε) is strictly
positive for every input (including the all-zero signal), the output has the
input's shape, and the all-zero signal is mapped to the all-zero signal. -/
theorem C10_normalize_total :
    (∀ data : List (ℚ × ℚ), 0 < normPower data) ∧
    (∀ data : List (ℚ × ℚ), (normalize data).length = data.length) ∧
    (∀ n : ℕ, normalize (List.replicate n (0, 0)) = List.replicate n ((0 : ℝ), 0)) := by
  have hpow : ∀ data : List (ℚ × ℚ), 0 < normPower data := by
    intro data
    rw [normPower, Real.sqrt_pos]
    have h1 : (0 : ℝ) ≤ (meanAbsSq data : ℝ) := by
      exact_mod_cast meanAbsSq_nonneg data
    norm_num
    linarith
  refine ⟨hpow, fun data => by simp [normalize], ?_⟩
  intro n
  rw [normalize, List.map_replicate]
  simp

end PassiveRadar

namespace PassiveRadar

/-! ### CAF engine — `passive_radar/caf/caf.py` -/

/-- `np.fft.fft(x, m)`: the length-`m` DFT of `x`, zero-padded or truncated to
`m` samples. -/
noncomputable def npfft (m : ℕ) (x : List ℂ) : List ℂ :=
  (List.range m).map fun k =>
    ∑ j ∈ Finset.range m,
      x.getD j 0 * Complex.exp (-2 * (Real.pi : ℂ) * Complex.I * (j : ℂ) * (k : ℂ) / (m : ℂ))

/-- `np.fft.ifft` of a length-`m` input. -/
noncomputable def npifft (m : ℕ) (x : List ℂ) : List ℂ :=
  (List.range m).map fun k =>
    (∑ j ∈ Finset.range m,
      x.getD j 0 * Complex.exp (2 * (Real.pi : ℂ) * Complex.I * (j : ℂ) * (k : ℂ) / (m : ℂ))) / (m : ℂ)

/-- `np.fft.fftshift`: cyclic roll by `len // 2`, moving the zero-frequency bin
to the centre; as a left rotation this is by `⌈len / 2⌉` places. -/
def npfftshift {α : Type*} (x : List α) : List α :=
  x.rotateLeft ((x.length + 1) / 2)

/-- `max(1, (n - nfft) // seg_len + 1)` with Python floor division. -/
def num_segments (n nfft seg_len : ℕ) : ℕ :=
  (max 1 (((n : ℤ) - (nfft : ℤ)).fdiv (seg_len : ℤ) + 1)).toNat

/-- `int(nfft * (1 - overlap))`, the segment stride (for `0 ≤ overlap ≤ 1`). -/
def seg_length (nfft : ℕ) (overlap : ℚ) : ℕ :=
  (⌊(nfft : ℚ) * (1 - overlap)⌋).toNat

/-- One row of the pre-normalization CAF map: FFT cross-correlation of segment
`i` of `surv` against the conjugated reference spectrum `ref_conj`, then the
magnitude of the fftshift-centred length-`doppler_bins` FFT of the delay-power
vector.  A row whose segment is shorter than `nfft` stays the zeros it was
initialized to (the Python loop breaks). -/
noncomputable def caf_row (nfft : ℕ) (ref_conj : List ℂ) (surv : List ℂ)
    (doppler_bins seg_len : ℕ) (i : ℕ) : List ℝ :=
  let seg := (surv.drop (i * seg_len)).take nfft
  if seg.length < nfft then List.replicate doppler_bins 0
  else
    let corr := npifft nfft (List.zipWith (· * ·) (npfft nfft seg) ref_conj)
    let power : List ℂ := corr.map fun z => ((Complex.abs z : ℝ) : ℂ)
    (npfftshift (npfft doppler_bins power)).map Complex.abs

/-- `np.max` over a flattened array of nonnegative values (0 if empty). -/
def npmax (l : List ℝ) : ℝ := l.foldr max 0

/-- Embedding of `CAFProcessor.compute_caf`: truncate both inputs to the common
length, correlate each of `num_segments` overlapping segments against the
reference spectrum, Doppler-FFT each delay-power row, and divide the whole map
by `np.max(caf_map + 1e-12)`. -/
noncomputable def compute_caf (nfft seg_len : ℕ) (ref surv : List ℂ)
    (doppler_bins : ℕ) : List (List ℝ) :=
  let min_len := min ref.length surv.length
  let ref' := ref.take min_len
  let surv' := surv.take min_len
  let S := num_segments min_len nfft seg_len
  let ref_conj := (npfft nfft (ref'.take nfft)).map star
  let rows := (List.range S).map fun i => caf_row nfft ref_conj surv' doppler_bins seg_len i
  let M := npmax ((rows.flatten).map fun v => v + 1e-12)
  rows.map fun row => row.map fun v => v / M

theorem le_npmax_of_mem {l : List ℝ} {x : ℝ} (hx : x ∈ l) : x ≤ npmax l := by
  induction l with
  | nil => cases hx
  | cons a t ih =>
    rcases List.mem_cons.mp hx with h | h
    · subst h; exact le_max_left _ _
    · exact le_trans (ih h) (le_max_right _ _)

theorem caf_row_nonneg (nfft : ℕ) (ref_conj surv : List ℂ) (nd seg_len i : ℕ) :
    ∀ v ∈ caf_row nfft ref_conj surv nd seg_len i, 0 ≤ v := by
  intro v hv
  rw [caf_row] at hv
  split at hv
  · rcases List.eq_of_mem_replicate hv with rfl; exact le_refl 0
  · simp only [List.mem_map] at hv
    rcases hv with ⟨z, _, rfl⟩
    exact AbsoluteValue.nonneg _ z

theorem num_segments_eq {n nfft seg_len : ℕ} (h : nfft ≤ n) (hs : 0 < seg_len) :
    num_segments n nfft seg_len = (n - nfft) / seg_len + 1 := by
  rw [num_segments]
  have h1 : ((n : ℤ) - (nfft : ℤ)).fdiv (seg_len : ℤ) = (((n - nfft) / seg_len : ℕ) : ℤ) := by
    rw [show ((n : ℤ) - (nfft : ℤ)) = (((n - nfft : ℕ)) : ℤ) by omega,
      Int.fdiv_eq_ediv _ (by exact_mod_cast Nat.zero_le seg_len), ← Int.ofNat_ediv]
  rw [h1]
  have hq := Int.natCast_nonneg ((n - nfft) / seg_len)
  omega

theorem caf_segment_full {n nfft seg_len i : ℕ} (hn : nfft ≤ n) (hs : 0 < seg_len)
    (hi : i < num_segments n nfft seg_len) : i * seg_len + nfft ≤ n := by
  rw [num_segments_eq hn hs] at hi
  have h1 : i ≤ (n - nfft) / seg_len := by omega
  have h2 : (n - nfft) / seg_len * seg_len ≤ n - nfft := Nat.div_mul_le_self _ _
  have h3 : i * seg_len ≤ (n - nfft) / seg_len * seg_len := Nat.mul_le_mul_right _ h1
  omega

/-- Closed form of one full (non-broken) CAF row: the delay-power vector of
segment `i` of `surv` cross-correlated with the reference spectrum, then the
magnitude of the fftshift-centred length-`nd` FFT along the delay axis. -/
noncomputable def caf_row_spec (nfft : ℕ) (ref surv : List ℂ) (nd seg_len i : ℕ) : List ℝ :=
  let ref_conj := (npfft nfft (ref.take nfft)).map star
  let seg := (surv.drop (i * seg_len)).take nfft
  let corr := npifft nfft (List.zipWith (· * ·) (npfft nfft seg) ref_conj)
  (npfftshift (npfft nd (corr.map fun z => ((Complex.abs z : ℝ) : ℂ)))).map Complex.abs

/-- The global normalization divisor `np.max(caf_map + 1e-12)` of the CAF map. -/
noncomputable def caf_norm_factor (nfft seg_len : ℕ) (ref surv : List ℂ) (nd : ℕ) : ℝ :=
  npmax (((((List.range (num_segments ref.length nfft seg_len)).map
      fun i => caf_row_spec nfft ref surv nd seg_len i)).flatten).map fun v => v + 1e-12)

theorem caf_row_eq_spec {nfft seg_len : ℕ} {ref surv : List ℂ} {nd i : ℕ}
    (hfull : i * seg_len + nfft ≤ surv.length) :
    caf_row nfft ((npfft nfft (ref.take nfft)).map star) surv nd seg_len i =
      caf_row_spec nfft ref surv nd seg_len i := by
  simp only [caf_row, caf_row_spec]
  rw [if_neg]
  simp only [List.length_take, List.length_drop]
  omega

theorem compute_caf_eq_spec (nfft seg_len : ℕ) (ref surv : List ℂ) (nd : ℕ)
    (hlen : ref.length = surv.length) (hn : nfft ≤ ref.length) (hs : 0 < seg_len) :
    compute_caf nfft seg_len ref surv nd =
      ((List.range (num_segments ref.length nfft seg_len)).map
        fun i => caf_row_spec nfft ref surv nd seg_len i).map
        (List.map fun v => v / caf_norm_factor nfft seg_len ref surv nd) := by
  have hms : ∀ i, i < num_segments ref.length nfft seg_len → i * seg_len + nfft ≤ surv.length := by
    intro i hi
    have := caf_segment_full hn hs hi
    omega
  have hrowseq : (List.range (num_segments ref.length nfft seg_len)).map
      (fun i => caf_row nfft ((npfft nfft (ref.take nfft)).map star) surv nd seg_len i) =
      (List.range (num_segments ref.length nfft seg_len)).map
      (fun i => caf_row_spec nfft ref surv nd seg_len i) :=
    List.map_congr_left fun i hi => caf_row_eq_spec (hms i (List.mem_range.mp hi))
  simp only [compute_caf]
  rw [show ref.take (min ref.length surv.length) = ref by
        rw [hlen, min_self, ← hlen, List.take_length],
      show surv.take (min ref.length surv.length) = surv by
        rw [hlen, min_self, List.take_length],
      show min ref.length surv.length = ref.length by rw [hlen, min_self]]
  rw [hrowseq]
  rfl

/-- **C1 (amended).** For equal-length inputs with at least `nfft` samples and a
positive stride, `compute_caf` returns a map of `num_segments` rows (the number
of overlapping slow-time segments, *not* `doppler_bins` rows): row `i` is the
fftshift-centred length-`doppler_bins` FFT magnitude taken along the *delay*
axis of segment `i`'s cross-correlation power, divided by the global maximum
plus 1e-12.  No slow-time (across-segment) FFT is performed. -/
theorem C1_compute_caf_amended (nfft seg_len : ℕ) (ref surv : List ℂ) (nd : ℕ)
    (hlen : ref.length = surv.length) (hn : nfft ≤ ref.length) (hs : 0 < seg_len) :
    (compute_caf nfft seg_len ref surv nd).length = num_segments ref.length nfft seg_len ∧
    (∀ i, i < num_segments ref.length nfft seg_len →
      (compute_caf nfft seg_len ref surv nd)[i]? =
        some ((caf_row_spec nfft ref surv nd seg_len i).map
          fun v => v / caf_norm_factor nfft seg_len ref surv nd)) := by
  rw [compute_caf_eq_spec nfft seg_len ref surv nd hlen hn hs]
  constructor
  · simp
  · intro i hi
    rw [List.getElem?_map, List.getElem?_map, List.getElem?_range hi]
    rfl

/-- Witness for C1 (amended) at a concrete input. -/
theorem C1_compute_caf_amended_witness :
    (compute_caf 2 1 [1, 0, 1, 0] [0, 1, 0, 1] 4).length = num_segments 4 2 1 :=
  (C1_compute_caf_amended 2 1 [1, 0, 1, 0] [0, 1, 0, 1] 4 rfl (by norm_num)
    (by norm_num)).1

/-- **C1 (counterexample).** With `nfft = 2`, stride 1, `doppler_bins = 4` and
4-sample inputs, `compute_caf` returns 3 rows (one per segment), not
`ND = doppler_bins = 4` rows as the claimed `(ND, NR)` shape requires. -/
theorem C1_compute_caf_counterexample :
    (compute_caf 2 1 (List.replicate 4 (1 : ℂ)) (List.replicate 4 (1 : ℂ)) 4).length = 3 ∧
    (3 : ℕ) ≠ 4 := by
  constructor
  · simp only [compute_caf, List.length_map, List.length_range, List.length_replicate]
    decide
  · decide

theorem caf_norm_bounds (rows : List (List ℝ)) (hnn : ∀ r ∈ rows, ∀ v ∈ r, 0 ≤ v) :
    ∀ v ∈ (rows.map (List.map fun v =>
        v / npmax ((rows.flatten).map fun v => v + 1e-12))).flatten,
      0 ≤ v ∧ v ≤ 1 + 1e-9 := by
  intro v hv
  rcases List.mem_flatten.mp hv with ⟨row', hrow', hv'⟩
  rcases List.mem_map.mp hrow' with ⟨row, hrow, rfl⟩
  rcases List.mem_map.mp hv' with ⟨u, hu, rfl⟩
  have hu0 : 0 ≤ u := hnn row hrow u hu
  have humem : u + 1e-12 ∈ (rows.flatten).map fun v => v + 1e-12 :=
    List.mem_map.mpr ⟨u, List.mem_flatten.mpr ⟨row, hrow, hu⟩, rfl⟩
  have hM : u + 1e-12 ≤ npmax ((rows.flatten).map fun v => v + 1e-12) :=
    le_npmax_of_mem humem
  have hMpos : 0 < npmax ((rows.flatten).map fun v => v + 1e-12) := by
    have : (0 : ℝ) < 1e-12 := by norm_num
    linarith
  constructor
  · exact div_nonneg hu0 (le_of_lt hMpos)
  · have h1 : u / npmax ((rows.flatten).map fun v => v + 1e-12) ≤ 1 := by
      rw [div_le_one hMpos]
      linarith
    linarith

/-- **C8.** Every entry of every RD map returned by `compute_caf` satisfies
`0 ≤ v` and `v ≤ 1 + 1e-9`: entries are magnitudes and the map is divided by
its maximum plus 1e-12 (out-of-range indices read the default 0, which also
satisfies the bounds). -/
theorem C8_compute_caf_bounds (nfft seg_len : ℕ) (ref surv : List ℂ) (nd i j : ℕ) :
    0 ≤ ((compute_caf nfft seg_len ref surv nd).getD i []).getD j 0 ∧
    ((compute_caf nfft seg_len ref surv nd).getD i []).getD j 0 ≤ 1 + 1e-9 := by
  simp only [compute_caf]
  set rows := (List.range (num_segments (min ref.length surv.length) nfft seg_len)).map
      (fun k => caf_row nfft ((npfft nfft ((ref.take (min ref.length surv.length)).take nfft)).map star)
        (surv.take (min ref.length surv.length)) nd seg_len k) with hrows
  have hnn : ∀ r ∈ rows, ∀ v ∈ r, 0 ≤ v := by
    intro r hr v hv
    rcases List.mem_map.mp hr with ⟨k, _, rfl⟩
    exact caf_row_nonneg _ _ _ _ _ _ v hv
  have hb := caf_norm_bounds rows hnn
  set L := rows.map (List.map fun v => v / npmax ((rows.flatten).map fun v => v + 1e-12)) with hL
  by_cases hi : i < L.length
  · have hrowmem : L.getD i [] ∈ L := by
      rw [List.getD_eq_getElem?_getD, List.getElem?_eq_getElem hi]
      exact List.getElem_mem hi
    generalize hrowdef : L.getD i [] = row at hrowmem ⊢
    by_cases hj : j < row.length
    · have hvmem : row.getD j 0 ∈ row := by
        rw [List.getD_eq_getElem?_getD, List.getElem?_eq_getElem hj]
        exact List.getElem_mem hj
      exact hb _ (List.mem_flatten.mpr ⟨_, hrowmem, hvmem⟩)
    · rw [List.getD_eq_default _ _ (le_of_not_lt hj)]
      norm_num
  · rw [List.getD_eq_default _ _ (le_of_not_lt hi)]
    constructor
    · simp
    · simp
      norm_num

end PassiveRadar

namespace PassiveRadar

/-! ### 2-D CA-CFAR — `src/cfar.py`, `cfar_2d` -/

/-- The cell-under-test interior of `cfar_2d`: the Python double loop runs over
`i ∈ [Td+Gd, nd-(Td+Gd))`, `j ∈ [Tr+Gr, nr-(Tr+Gr))` (training `T`, guard `G`). -/
def cfar_interior (nd nr Gd Gr Td Tr i j : ℕ) : Prop :=
  Td + Gd ≤ i ∧ i + (Td + Gd) < nd ∧ Tr + Gr ≤ j ∧ j + (Tr + Gr) < nr

instance (nd nr Gd Gr Td Tr i j : ℕ) : Decidable (cfar_interior nd nr Gd Gr Td Tr i j) := by
  unfold cfar_interior
  infer_instance

/-- Entry (k,l) of the window `rdmap[i-(Td+Gd) : i+(Td+Gd)+1, j-(Tr+Gr) : j+(Tr+Gr)+1]`
after the Python slice assignment `window[Td : -(Td+1), Tr : -(Tr+1)] = 0`; that slice
zeroes the block `Td ≤ k < Td + 2Gd`, `Tr ≤ l < Tr + 2Gr` of the
(2(Td+Gd)+1) × (2(Tr+Gr)+1) window. -/
noncomputable def cfar_window (rdmap : ℕ → ℕ → ℝ) (Gd Gr Td Tr i j k l : ℕ) : ℝ :=
  if Td ≤ k ∧ k < Td + 2 * Gd ∧ Tr ≤ l ∧ l < Tr + 2 * Gr then 0
  else rdmap (i - (Td + Gd) + k) (j - (Tr + Gr) + l)

/-- The noise divisor `window.size - (2Gd+1)(2Gr+1)` of `cfar_2d`. -/
def cfar_K (Gd Gr Td Tr : ℕ) : ℕ :=
  (2 * (Td + Gd) + 1) * (2 * (Tr + Gr) + 1) - (2 * Gd + 1) * (2 * Gr + 1)

/-- `alpha = ref_d·ref_r·(pfa^(-1/(ref_d·ref_r)) - 1)` from `cfar_2d`: the scaling
uses the *product of the training-cell parameters*, not the training-cell count. -/
noncomputable def cfar_alpha (Td Tr : ℕ) (pfa : ℝ) : ℝ :=
  ((Td * Tr : ℕ) : ℝ) * (pfa ^ (-1 / ((Td * Tr : ℕ) : ℝ)) - 1)

/-- `noise_level = np.sum(window) / (window.size - (2Gd+1)(2Gr+1))`. -/
noncomputable def cfar_noise (rdmap : ℕ → ℕ → ℝ) (Gd Gr Td Tr i j : ℕ) : ℝ :=
  (∑ k ∈ Finset.range (2 * (Td + Gd) + 1), ∑ l ∈ Finset.range (2 * (Tr + Gr) + 1),
      cfar_window rdmap Gd Gr Td Tr i j k l) / ((cfar_K Gd Gr Td Tr : ℕ) : ℝ)

/-- The threshold map written by `cfar_2d` (zero outside the interior, where the
array keeps its `np.zeros_like` initialization). -/
noncomputable def cfar_thr_map (rdmap : ℕ → ℕ → ℝ) (nd nr Gd Gr Td Tr : ℕ) (pfa : ℝ)
    (i j : ℕ) : ℝ :=
  if cfar_interior nd nr Gd Gr Td Tr i j then
    cfar_alpha Td Tr pfa * cfar_noise rdmap Gd Gr Td Tr i j
  else 0

/-- The binary detection map written by `cfar_2d`: 1 exactly on interior cells whose
`rdmap` value strictly exceeds the threshold. -/
noncomputable def cfar_det_map (rdmap : ℕ → ℕ → ℝ) (nd nr Gd Gr Td Tr : ℕ) (pfa : ℝ)
    (i j : ℕ) : ℕ :=
  if cfar_interior nd nr Gd Gr Td Tr i j ∧
      cfar_thr_map rdmap nd nr Gd Gr Td Tr pfa i j < rdmap i j then 1 else 0

/-- The threshold exactly as claim C2 states it: μ over training cells that exclude
the full central (2Gd+1) × (2Gr+1) guard block, scaled by α = K·(Pfa^(-1/K) - 1)
with K the training-cell count. -/
noncomputable def cfar_thr_claim (rdmap : ℕ → ℕ → ℝ) (Gd Gr Td Tr : ℕ) (pfa : ℝ)
    (i j : ℕ) : ℝ :=
  let K : ℝ := ((cfar_K Gd Gr Td Tr : ℕ) : ℝ)
  let mu : ℝ := (∑ k ∈ Finset.range (2 * (Td + Gd) + 1),
      ∑ l ∈ Finset.range (2 * (Tr + Gr) + 1),
      if Td ≤ k ∧ k < Td + 2 * Gd + 1 ∧ Tr ≤ l ∧ l < Tr + 2 * Gr + 1 then 0
      else rdmap (i - (Td + Gd) + k) (j - (Tr + Gr) + l)) / K
  K * (pfa ^ (-1 / K) - 1) * mu

/-- The RD map used to separate `cfar_2d` from claim C2's formula: a single unit
value at (12, 10) of a 21 × 21 map, which lies in the last guard row of the
claimed (2Gd+1) × (2Gr+1) guard block around the CUT (10, 10) but is *not* zeroed
by the code's `window[Td : -(Td+1), Tr : -(Tr+1)] = 0` slice. -/
noncomputable def rdmapC2 : ℕ → ℕ → ℝ := fun i j => if i = 12 ∧ j = 10 then 1 else 0

theorem cfar_alpha_default_pos : 0 < cfar_alpha 8 8 (1 / 1000) := by
  rw [cfar_alpha]
  have h64 : (((8 * 8 : ℕ)) : ℝ) = 64 := by norm_num
  rw [h64]
  have hx : (0 : ℝ) < 1 / 1000 := by norm_num
  have h1 : 1 < (1 / 1000 : ℝ) ^ ((-1 : ℝ) / 64) := by
    rw [Real.one_lt_rpow_iff_of_pos hx]
    right
    constructor <;> norm_num
  nlinarith

theorem cfar_noiseC2 : cfar_noise rdmapC2 2 2 8 8 10 10 = 1 / 416 := by
  rw [cfar_noise]
  have hsum : (∑ k ∈ Finset.range (2 * (8 + 2) + 1), ∑ l ∈ Finset.range (2 * (8 + 2) + 1),
      cfar_window rdmapC2 2 2 8 8 10 10 k l) = 1 := by
    rw [Finset.sum_eq_single 12]
    · rw [Finset.sum_eq_single 10]
      · rw [cfar_window, if_neg (by omega)]
        simp [rdmapC2]
      · intro l _ hl
        rw [cfar_window]
        split
        · rfl
        · rw [rdmapC2, if_neg (by omega)]
      · intro h
        exact absurd (by norm_num : (10 : ℕ) ∈ Finset.range (2 * (8 + 2) + 1)) h
    · intro k _ hk
      apply Finset.sum_eq_zero
      intro l _
      rw [cfar_window]
      split
      · rfl
      · rw [rdmapC2, if_neg (by omega)]
    · intro h
      exact absurd (by norm_num : (12 : ℕ) ∈ Finset.range (2 * (8 + 2) + 1)) h
  rw [hsum]
  norm_num [cfar_K]

theorem cfar_thr_claimC2 : cfar_thr_claim rdmapC2 2 2 8 8 (1 / 1000) 10 10 = 0 := by
  rw [cfar_thr_claim]
  have hsum : (∑ k ∈ Finset.range (2 * (8 + 2) + 1), ∑ l ∈ Finset.range (2 * (8 + 2) + 1),
      if 8 ≤ k ∧ k < 8 + 2 * 2 + 1 ∧ 8 ≤ l ∧ l < 8 + 2 * 2 + 1 then 0
      else rdmapC2 (10 - (8 + 2) + k) (10 - (8 + 2) + l)) = (0 : ℝ) := by
    apply Finset.sum_eq_zero
    intro k _
    apply Finset.sum_eq_zero
    intro l _
    split
    · rfl
    · rename_i hg
      rw [rdmapC2, if_neg]
      intro hc
      exact hg ⟨by omega, by omega, by omega, by omega⟩
  simp only [hsum, zero_div, mul_zero]

/-- **C2 (counterexample).** At the CUT (10,10) of a 21 × 21 map holding a single
unit value at (12,10), with default parameters G = (2,2), T = (8,8), Pfa = 1e-3,
the threshold `cfar_2d` writes is strictly positive while the claimed formula
(guard block (2Gd+1) × (2Gr+1) excluded, α = K(Pfa^(-1/K) - 1)) gives 0: the
code leaves the last guard row/column in the noise sum and scales by
Td·Tr(Pfa^(-1/(Td·Tr)) - 1). -/
theorem C2_cfar_counterexample :
    cfar_thr_map rdmapC2 21 21 2 2 8 8 (1 / 1000) 10 10 ≠
      cfar_thr_claim rdmapC2 2 2 8 8 (1 / 1000) 10 10 := by
  rw [cfar_thr_claimC2, cfar_thr_map, if_pos (by decide), cfar_noiseC2]
  have := cfar_alpha_default_pos
  positivity

/-- **C2 (amended).** For every CUT (i,j) inside the border, the threshold
`cfar_2d` writes equals α·μ where μ sums the window cells *outside the code's
zeroed block* `[Td, Td+2Gd) × [Tr, Tr+2Gr)` — a (2Gd) × (2Gr) block, so the last
guard row and column (and the CUT's row/column beyond them) remain in the sum —
divided by K = (2(Td+Gd)+1)(2(Tr+Gr)+1) − (2Gd+1)(2Gr+1), and
α = Td·Tr·(Pfa^(−1/(Td·Tr)) − 1) uses the training parameters' product, not K;
a detection is emitted exactly when rdmap[i,j] exceeds this threshold. -/
theorem C2_cfar_amended (rdmap : ℕ → ℕ → ℝ) (nd nr Gd Gr Td Tr : ℕ) (pfa : ℝ) (i j : ℕ)
    (hin : cfar_interior nd nr Gd Gr Td Tr i j) :
    cfar_thr_map rdmap nd nr Gd Gr Td Tr pfa i j =
      cfar_alpha Td Tr pfa *
        ((∑ p ∈ (Finset.range (2 * (Td + Gd) + 1) ×ˢ Finset.range (2 * (Tr + Gr) + 1)).filter
            (fun p => ¬(Td ≤ p.1 ∧ p.1 < Td + 2 * Gd ∧ Tr ≤ p.2 ∧ p.2 < Tr + 2 * Gr)),
          rdmap (i - (Td + Gd) + p.1) (j - (Tr + Gr) + p.2)) /
          ((cfar_K Gd Gr Td Tr : ℕ) : ℝ)) ∧
    (cfar_det_map rdmap nd nr Gd Gr Td Tr pfa i j = 1 ↔
      cfar_thr_map rdmap nd nr Gd Gr Td Tr pfa i j < rdmap i j) := by
  constructor
  · rw [cfar_thr_map, if_pos hin, cfar_noise]
    have hsum : (∑ k ∈ Finset.range (2 * (Td + Gd) + 1), ∑ l ∈ Finset.range (2 * (Tr + Gr) + 1),
        cfar_window rdmap Gd Gr Td Tr i j k l) =
        ∑ p ∈ (Finset.range (2 * (Td + Gd) + 1) ×ˢ Finset.range (2 * (Tr + Gr) + 1)).filter
            (fun p => ¬(Td ≤ p.1 ∧ p.1 < Td + 2 * Gd ∧ Tr ≤ p.2 ∧ p.2 < Tr + 2 * Gr)),
          rdmap (i - (Td + Gd) + p.1) (j - (Tr + Gr) + p.2) := by
      rw [Finset.sum_filter, Finset.sum_product]
      simp only [cfar_window, ite_not]
    rw [hsum]
  · rw [cfar_det_map]
    by_cases hlt : cfar_thr_map rdmap nd nr Gd Gr Td Tr pfa i j < rdmap i j
    · simp [hin, hlt]
    · simp [hin, hlt]

/-- Witness for C2 (amended) at the concrete 21 × 21 input. -/
theorem C2_cfar_amended_witness :
    cfar_det_map rdmapC2 21 21 2 2 8 8 (1 / 1000) 10 10 = 1 ↔
      cfar_thr_map rdmapC2 21 21 2 2 8 8 (1 / 1000) 10 10 < rdmapC2 10 10 :=
  (C2_cfar_amended rdmapC2 21 21 2 2 8 8 (1 / 1000) 10 10 (by decide)).2

end PassiveRadar

namespace PassiveRadar

/-! ### Tracker — `src/tracker.py` -/

/-- The measurement matrix `H = [[1,0,0,0],[0,1,0,0]]`. -/
def Hmat : Matrix (Fin 2) (Fin 4) ℝ := !![1, 0, 0, 0; 0, 1, 0, 0]

/-- The measurement noise `R = np.eye(2) * meas_var`. -/
noncomputable def Rmat (meas_var : ℝ) : Matrix (Fin 2) (Fin 2) ℝ := meas_var • 1

/-- The constant-velocity transition matrix `F(dt)` of `_build_F_Q`. -/
def Fmat (dt : ℝ) : Matrix (Fin 4) (Fin 4) ℝ :=
  !![1, 0, dt, 0; 0, 1, 0, dt; 0, 0, 1, 0; 0, 0, 0, 1]

/-- The process noise `Q(dt) = q · [[dt³/3,0,dt²/2,0],…]` of `_build_F_Q`. -/
noncomputable def Qmat (dt q : ℝ) : Matrix (Fin 4) (Fin 4) ℝ :=
  q • !![dt ^ 3 / 3, 0, dt ^ 2 / 2, 0; 0, dt ^ 3 / 3, 0, dt ^ 2 / 2;
         dt ^ 2 / 2, 0, dt, 0; 0, dt ^ 2 / 2, 0, dt]

/-- A track record (`Track` dataclass). -/
structure Track where
  id : ℕ
  state : Fin 4 → ℝ
  P : Matrix (Fin 4) (Fin 4) ℝ
  last_update : ℝ
  history : List (ℝ × ℝ × ℝ)
  missed : ℕ

/-- `np.linalg.inv` on the 2×2 innovation covariance: raises (`none`) exactly on
a singular matrix, otherwise returns the inverse. -/
noncomputable def npinv2 (S : Matrix (Fin 2) (Fin 2) ℝ) : Option (Matrix (Fin 2) (Fin 2) ℝ) :=
  if S.det = 0 then none else some S⁻¹

/-- `Track.predict`: `x ← F x`, `P ← F P Fᵀ + Q`, `missed += 1`. -/
noncomputable def Track.predict (tr : Track) (F Q : Matrix (Fin 4) (Fin 4) ℝ) : Track :=
  { tr with
    state := F.mulVec tr.state
    P := F * tr.P * F.transpose + Q
    missed := tr.missed + 1 }

/-- `Track.update`: the Kalman measurement update; `none` models the uncaught
`numpy.linalg.LinAlgError` when the innovation covariance is singular. -/
noncomputable def Track.update (tr : Track) (meas : Fin 2 → ℝ)
    (H : Matrix (Fin 2) (Fin 4) ℝ) (R : Matrix (Fin 2) (Fin 2) ℝ) (t : ℝ) : Option Track :=
  let y := meas - H.mulVec tr.state
  let S := H * tr.P * H.transpose + R
  match npinv2 S with
  | none => none
  | some Sinv =>
    let K := tr.P * H.transpose * Sinv
    let state' := tr.state + K.mulVec y
    let P' := (1 - K * H) * tr.P
    some { tr with
      state := state'
      P := P'
      missed := 0
      last_update := t
      history := tr.history ++ [(t, state' 0, state' 1)] }

/-- The tracker (`Tracker` class). -/
structure Tracker where
  dt : ℝ
  process_var : ℝ
  meas_var : ℝ
  dist_threshold : ℝ
  max_missed : ℕ
  next_id : ℕ
  tracks : List Track

/-- `Tracker.__init__` with all default arguments:
`dt=1.0, process_var=1.0, meas_var=10.0, dist_threshold=10.0, max_missed=5`. -/
noncomputable def mkTracker : Tracker :=
  { dt := 1
    process_var := 1
    meas_var := 10
    dist_threshold := 10
    max_missed := 5
    next_id := 1
    tracks := [] }

/-- `np.linalg.norm` of the difference of two 2-D points: the Euclidean
distance used by `_gate_cost_matrix`. -/
noncomputable def dist2 (p q : ℝ × ℝ) : ℝ :=
  Real.sqrt ((p.1 - q.1) ^ 2 + (p.2 - q.2) ^ 2)

/-- All ways of picking one element out of a list, paired with the rest. -/
def picks {α : Type*} : List α → List (α × List α)
  | [] => []
  | c :: cs => (c, cs) :: (picks cs).map fun p => (p.1, c :: p.2)

/-- All maximal matchings giving each row, in order, a distinct column. -/
def rowAssignments : List ℕ → List ℕ → List (List (ℕ × ℕ))
  | [], _ => [[]]
  | r :: rs, cols =>
    ((picks cols).map fun pc =>
      (rowAssignments rs pc.2).map fun a => (r, pc.1) :: a).flatten

/-- `scipy.optimize.linear_sum_assignment` on an `m × n` cost matrix: a maximal
matching of minimum total cost (first minimizer in enumeration order). -/
noncomputable def linear_sum_assignment (cost : ℕ → ℕ → ℝ) (m n : ℕ) : List (ℕ × ℕ) :=
  let cands :=
    if m ≤ n then rowAssignments (List.range m) (List.range n)
    else (rowAssignments (List.range n) (List.range m)).map (List.map fun p => (p.2, p.1))
  (cands.argmin fun a => (a.map fun p => cost p.1 p.2).sum).getD []

/-- The gated cost of `Tracker.update`: entries of the Euclidean cost matrix
above `dist_threshold` are replaced by the sentinel 1e6. -/
noncomputable def gated_cost (preds dets : List (ℝ × ℝ)) (θ : ℝ) (r c : ℕ) : ℝ :=
  let d := dist2 (preds.getD r (0, 0)) (dets.getD c (0, 0))
  if θ < d then 1e6 else d

/-- The Hungarian pairing computed in `Tracker.update` on the gated cost matrix
(empty when there are no tracks). -/
noncomputable def hungarianPairs (preds dets : List (ℝ × ℝ)) (θ : ℝ) : List (ℕ × ℕ) :=
  if preds.length = 0 then []
  else linear_sum_assignment (gated_cost preds dets θ) preds.length dets.length

/-- The pairings `Tracker.update` keeps: Hungarian pairs whose gated cost is
strictly below the 1e6 sentinel. -/
noncomputable def keptPairs (preds dets : List (ℝ × ℝ)) (θ : ℝ) : List (ℕ × ℕ) :=
  (hungarianPairs preds dets θ).filter fun p => gated_cost preds dets θ p.1 p.2 < 1e6

/-- A detection's (r, d) coordinates as a measurement vector. -/
def detVec (p : ℝ × ℝ) : Fin 2 → ℝ := ![p.1, p.2]

/-- Step 3 of `Tracker.update` for one (row-index, track) pair: Kalman-update the
track with its assigned detection if the gating kept one, propagate the
`np.linalg.inv` failure as an error, and pass unassigned tracks through
(coasted). -/
noncomputable def updateAssigned (pairs : List (ℕ × ℕ)) (dets : List (ℝ × ℝ))
    (meas_var timestamp : ℝ) (rt : ℕ × Track) : Except String Track :=
  match pairs.find? fun p => p.1 = rt.1 with
  | none => Except.ok rt.2
  | some pc =>
    match rt.2.update (detVec (dets.getD pc.2 (0, 0))) Hmat (Rmat meas_var) timestamp with
    | none => Except.error "singular innovation covariance"
    | some tr' => Except.ok tr'

/-- `Tracker.update`: predict all tracks, gate and assign detections, Kalman-update
assigned tracks (a singular innovation covariance propagates as an error), spawn
tracks for unassigned detections, prune tracks with `missed > max_missed`, and
return the tracker with the list of live tracks. -/
noncomputable def Tracker.update (tk : Tracker) (detections : List (ℝ × ℝ × ℝ))
    (timestamp : ℝ) : Except String (Tracker × List Track) :=
  let F := Fmat tk.dt
  let Q := Qmat tk.dt tk.process_var
  let tracks1 := tk.tracks.map fun tr => tr.predict F Q
  let preds := tracks1.map fun tr => (tr.state 0, tr.state 1)
  let dets := detections.map fun d => (d.1, d.2.1)
  let pairs := keptPairs preds dets tk.dist_threshold
  match tracks1.enum.mapM (updateAssigned pairs dets tk.meas_var timestamp) with
  | Except.error e => Except.error e
  | Except.ok updTracks =>
    let unassigned := (List.range detections.length).filter fun idx =>
      ¬ (pairs.map Prod.snd).contains idx
    let mkNew : ℕ × ℕ → Track := fun p =>
      let d := detections.getD p.2 (0, 0, 0)
      { id := tk.next_id + p.1
        state := ![d.1, d.2.1, 0, 0]
        P := Matrix.diagonal ![50, 50, 25, 25]
        last_update := timestamp
        history := [(timestamp, d.1, d.2.1)]
        missed := 0 }
    let newTracks := unassigned.enum.map mkNew
    let allTracks := updTracks ++ newTracks
    let kept := allTracks.filter fun tr => tr.missed ≤ tk.max_missed
    Except.ok ({ tk with next_id := tk.next_id + unassigned.length, tracks := kept }, kept)

end PassiveRadar

namespace PassiveRadar

/-- **C3 (amended).** The Kalman update fails exactly when the innovation
covariance `S = H·P·Hᵀ + R` is singular: `Track.update` has no skip/coast path
for this case — the `np.linalg.inv` failure propagates. -/
theorem C3_singular_update_amended (tr : Track) (z : Fin 2 → ℝ)
    (H : Matrix (Fin 2) (Fin 4) ℝ) (R : Matrix (Fin 2) (Fin 2) ℝ) (t : ℝ) :
    Track.update tr z H R t = none ↔ (H * tr.P * H.transpose + R).det = 0 := by
  by_cases h : (H * tr.P * H.transpose + R).det = 0
  · simp [Track.update, npinv2, h]
  · simp [Track.update, npinv2, h]

/-- **C4 (amended).** A Tracker constructed without an explicit
`dist_threshold` gates at 10.0 (not 12.0): a Hungarian-selected pairing is kept
by `Tracker.update` exactly when the Euclidean distance between predicted
position and measurement is at most 10 (the cost entry is replaced by the 1e6
sentinel when the distance exceeds the threshold, and any selected pair whose
gated cost is not below 1e6 is discarded). -/
theorem C4_dist_threshold_amended :
    mkTracker.dist_threshold = 10 ∧
    ∀ (preds dets : List (ℝ × ℝ)) (r c : ℕ),
      ((r, c) ∈ keptPairs preds dets mkTracker.dist_threshold ↔
        ((r, c) ∈ hungarianPairs preds dets mkTracker.dist_threshold ∧
          dist2 (preds.getD r (0, 0)) (dets.getD c (0, 0)) ≤ 10)) := by
  have hθ : mkTracker.dist_threshold = 10 := rfl
  refine ⟨hθ, ?_⟩
  intro preds dets r c
  rw [keptPairs, hθ]
  simp only [List.mem_filter, decide_eq_true_eq]
  constructor
  · rintro ⟨hm, hg⟩
    refine ⟨hm, ?_⟩
    simp only [gated_cost] at hg
    by_cases hd : (10 : ℝ) < dist2 (preds.getD r (0, 0)) (dets.getD c (0, 0))
    · rw [if_pos hd] at hg
      norm_num at hg
    · exact le_of_not_lt hd
  · rintro ⟨hm, hd⟩
    refine ⟨hm, ?_⟩
    simp only [gated_cost, if_neg (not_lt.mpr hd)]
    calc dist2 (preds.getD r (0, 0)) (dets.getD c (0, 0)) ≤ 10 := hd
      _ < 1e6 := by norm_num

theorem posSemidef_diag_nonneg {M : Matrix (Fin 4) (Fin 4) ℝ} (h : M.PosSemidef)
    (i : Fin 4) : 0 ≤ M i i := by
  have h2 := h.2 (Pi.single i 1)
  simpa using h2

theorem conjTranspose_eq_transpose_real {m n : Type*} (A : Matrix m n ℝ) :
    A.conjTranspose = A.transpose := by
  ext a b
  simp [Matrix.conjTranspose_apply]

/-- **C5 (amended).** If the measurement equals `H·x` exactly, the Kalman update
succeeds whenever `P` is positive semidefinite and `R` positive definite, leaves
the state unchanged, and no diagonal entry of `P` increases (entries whose
position-covariance rows vanish stay equal, so the decrease is not strict in
general). -/
theorem C5_kalman_amended (tr : Track) (z : Fin 2 → ℝ) (H : Matrix (Fin 2) (Fin 4) ℝ)
    (R : Matrix (Fin 2) (Fin 2) ℝ) (t : ℝ)
    (hP : tr.P.PosSemidef) (hR : R.PosDef) (hz : z = H.mulVec tr.state) :
    ∃ tr', Track.update tr z H R t = some tr' ∧
      tr'.state = tr.state ∧ ∀ i, tr'.P i i ≤ tr.P i i := by
  have hS : (H * tr.P * H.transpose + R).PosDef := by
    have h1 : (H * tr.P * H.conjTranspose).PosSemidef :=
      hP.mul_mul_conjTranspose_same H
    rw [conjTranspose_eq_transpose_real] at h1
    rw [add_comm]
    exact hR.add_posSemidef h1
  have hdet : ¬ (H * tr.P * H.transpose + R).det = 0 := ne_of_gt hS.det_pos
  simp only [Track.update, npinv2, if_neg hdet]
  refine ⟨_, rfl, ?_, ?_⟩
  · show tr.state + (tr.P * H.transpose * (H * tr.P * H.transpose + R)⁻¹).mulVec
      (z - H.mulVec tr.state) = tr.state
    rw [hz, sub_self, Matrix.mulVec_zero, add_zero]
  · intro i
    set S := H * tr.P * H.transpose + R with hSdef
    have hSinv : (S⁻¹).PosDef := hS.inv
    have hpsd : (((H * tr.P).conjTranspose) * S⁻¹ * (H * tr.P)).PosSemidef :=
      hSinv.posSemidef.conjTranspose_mul_mul_same (H * tr.P)
    have hKHP : tr.P * H.transpose * S⁻¹ * H * tr.P =
        ((H * tr.P).conjTranspose) * S⁻¹ * (H * tr.P) := by
      rw [Matrix.conjTranspose_mul, hP.1.eq, conjTranspose_eq_transpose_real]
      simp only [Matrix.mul_assoc]
    have hdiag : 0 ≤ (tr.P * H.transpose * S⁻¹ * H * tr.P) i i := by
      rw [hKHP]
      exact posSemidef_diag_nonneg hpsd i
    show ((1 - tr.P * H.transpose * S⁻¹ * H) * tr.P : Matrix (Fin 4) (Fin 4) ℝ) i i ≤ tr.P i i
    rw [sub_mul, one_mul, Matrix.sub_apply]
    exact sub_le_self _ hdiag

end PassiveRadar

namespace PassiveRadar

/-- The concrete track used for claim C5: zero state and the tracker's initial
covariance `P₀ = diag(50, 50, 25, 25)`. -/
noncomputable def trC5 : Track :=
  { id := 1
    state := ![0, 0, 0, 0]
    P := Matrix.diagonal ![50, 50, 25, 25]
    last_update := 0
    history := []
    missed := 0 }

/-- Witness for C5 (amended) at a concrete input. -/
theorem C5_kalman_amended_witness :
    ∃ tr', Track.update trC5 ![0, 0] Hmat (Rmat 10) 0 = some tr' ∧
      tr'.state = trC5.state ∧ ∀ i, tr'.P i i ≤ trC5.P i i := by
  apply C5_kalman_amended
  · rw [show trC5.P = Matrix.diagonal ![50, 50, 25, 25] from rfl,
      Matrix.posSemidef_diagonal_iff]
    intro i
    fin_cases i <;> norm_num
  · rw [Rmat, Matrix.smul_one_eq_diagonal, Matrix.posDef_diagonal_iff]
    intro i
    norm_num
  · funext i
    fin_cases i <;>
      simp [Hmat, trC5, Matrix.mulVec, Matrix.dotProduct, Fin.sum_univ_four]

theorem SC5_eq : Hmat * trC5.P * Hmat.transpose + Rmat 10 =
    (!![60, 0; 0, 60] : Matrix (Fin 2) (Fin 2) ℝ) := by
  ext i j
  rw [Matrix.add_apply]
  simp only [Matrix.mul_apply, Matrix.transpose_apply, Fin.sum_univ_four, Fin.sum_univ_two]
  fin_cases i <;> fin_cases j <;>
    simp [Hmat, Rmat, trC5, Matrix.diagonal_apply, Matrix.one_apply, Matrix.smul_apply] <;>
    norm_num

theorem SC5_inv : npinv2 (!![60, 0; 0, 60] : Matrix (Fin 2) (Fin 2) ℝ) =
    some (!![1 / 60, 0; 0, 1 / 60] : Matrix (Fin 2) (Fin 2) ℝ) := by
  rw [npinv2, if_neg (by rw [Matrix.det_fin_two_of]; norm_num)]
  congr 1
  rw [Matrix.inv_def, Matrix.adjugate_fin_two, Matrix.det_fin_two_of]
  ext i j
  fin_cases i <;> fin_cases j <;>
    simp [Ring.inverse_eq_inv', Matrix.smul_apply] <;> norm_num

theorem PC5_entry :
    ((1 - trC5.P * Hmat.transpose * (!![1 / 60, 0; 0, 1 / 60] : Matrix (Fin 2) (Fin 2) ℝ) *
        Hmat) * trC5.P : Matrix (Fin 4) (Fin 4) ℝ) 2 2 = 25 := by
  simp only [Matrix.mul_apply, Matrix.sub_apply, Matrix.one_apply, Matrix.transpose_apply,
    Fin.sum_univ_four, Fin.sum_univ_two]
  simp [Hmat, trC5, Matrix.diagonal_apply]

/-- **C5 (counterexample).** For the track with `P = diag(50, 50, 25, 25)` and a
measurement equal to `H·x`, the Kalman update leaves the velocity-variance
entry `P[2][2] = 25` unchanged, so the diagonal of `P` does not *strictly*
decrease. -/
theorem C5_counterexample :
    (Track.update trC5 ![0, 0] Hmat (Rmat 10) 0).map (fun tr' => tr'.P 2 2) = some 25 ∧
    trC5.P 2 2 = 25 ∧ ¬ ((25 : ℝ) < 25) := by
  refine ⟨?_, by simp [trC5, Matrix.diagonal], by norm_num⟩
  simp only [Track.update, SC5_eq, SC5_inv, Option.map_some']
  exact congrArg some PC5_entry

end PassiveRadar

namespace PassiveRadar

/-- The concrete track used for claim C3: its innovation covariance
`H·P·Hᵀ + R = diag(-10,-10) + 10·I = 0` is singular. -/
noncomputable def trC3 : Track :=
  { id := 1
    state := ![0, 0, 0, 0]
    P := Matrix.diagonal ![-10, -10, 0, 0]
    last_update := 0
    history := [(0, 0, 0)]
    missed := 0 }

/-- A tracker (dt = 0, defaults otherwise) holding `trC3`. -/
noncomputable def tkC3 : Tracker :=
  { dt := 0
    process_var := 1
    meas_var := 10
    dist_threshold := 10
    max_missed := 5
    next_id := 2
    tracks := [trC3] }

theorem Fmat_zero : Fmat 0 = 1 := by
  ext i j
  fin_cases i <;> fin_cases j <;>
    simp [Fmat, Matrix.one_apply, Matrix.vecHead, Matrix.vecTail]

theorem Qmat_zero (q : ℝ) : Qmat 0 q = 0 := by
  ext i j
  fin_cases i <;> fin_cases j <;>
    simp [Qmat, Matrix.smul_apply, Matrix.zero_apply, Matrix.vecHead, Matrix.vecTail] <;>
    norm_num

theorem trC3_predict : trC3.predict (Fmat 0) (Qmat 0 1) = { trC3 with missed := 1 } := by
  rw [Track.predict, Fmat_zero, Qmat_zero]
  simp [Matrix.one_mulVec, Matrix.transpose_one, trC3]

theorem SC3_eq : Hmat * trC3.P * Hmat.transpose + Rmat 10 =
    (0 : Matrix (Fin 2) (Fin 2) ℝ) := by
  ext i j
  rw [Matrix.add_apply]
  simp only [Matrix.mul_apply, Matrix.transpose_apply, Fin.sum_univ_four, Fin.sum_univ_two]
  fin_cases i <;> fin_cases j <;>
    simp [Hmat, Rmat, trC3, Matrix.diagonal_apply, Matrix.one_apply, Matrix.smul_apply,
      Matrix.zero_apply] <;> norm_num

theorem trC3_update_none (meas : Fin 2 → ℝ) (t : ℝ) :
    Track.update { trC3 with missed := 1 } meas Hmat (Rmat 10) t = none := by
  have h : Hmat * ({ trC3 with missed := 1 } : Track).P * Hmat.transpose + Rmat 10 =
      (0 : Matrix (Fin 2) (Fin 2) ℝ) := SC3_eq
  simp only [Track.update, h, npinv2]
  rw [if_pos (Matrix.det_zero ⟨(0 : Fin 2)⟩)]

theorem keptPairsC3 : keptPairs [((0 : ℝ), (0 : ℝ))] [((0 : ℝ), (0 : ℝ))] 10 = [(0, 0)] := by
  have hg : gated_cost [((0 : ℝ), (0 : ℝ))] [((0 : ℝ), (0 : ℝ))] 10 0 0 = 0 := by
    simp only [gated_cost, List.getD_cons_zero]
    rw [dist2]
    norm_num
  have hassign : rowAssignments (List.range 1) (List.range 1) = [[(0, 0)]] := rfl
  rw [keptPairs, hungarianPairs, if_neg (by norm_num), linear_sum_assignment]
  simp only [List.length_cons, List.length_nil, if_pos (le_refl 1), hassign,
    List.argmin_singleton, Option.getD_some]
  rw [List.filter_cons_of_pos (by rw [hg]; norm_num), List.filter_nil]

theorem updAssignedC3 :
    updateAssigned [(0, 0)] [((0 : ℝ), (0 : ℝ))] 10 0 (0, ({ trC3 with missed := 1 } : Track)) =
      Except.error "singular innovation covariance" := by
  rw [updateAssigned]
  rw [show (([(0, 0)] : List (ℕ × ℕ)).find? fun p =>
      p.1 = ((0 : ℕ), ({ trC3 with missed := 1 } : Track)).1) = some (0, 0) from rfl]
  show (match ({ trC3 with missed := 1 } : Track).update
      (detVec (([((0 : ℝ), (0 : ℝ))] : List (ℝ × ℝ)).getD 0 (0, 0))) Hmat (Rmat 10) 0 with
    | none => Except.error "singular innovation covariance"
    | some tr' => Except.ok tr') = Except.error "singular innovation covariance"
  rw [trC3_update_none]

/-- **C3 (counterexample).** A frame update on a tracker holding a track whose
innovation covariance is singular (P = diag(-10,-10,0,0), so S = 0) with one
gated detection does not coast the track: the `np.linalg.inv` failure
propagates out of `Tracker.update` as an error and no track table is produced. -/
theorem C3_counterexample :
    Tracker.update tkC3 [(0, 0, 1)] 0 =
      Except.error "singular innovation covariance" := by
  have hmapM : ([((0 : ℕ), ({ trC3 with missed := 1 } : Track))].mapM
      (updateAssigned [(0, 0)] [((0 : ℝ), (0 : ℝ))] 10 0)) =
      (Except.error "singular innovation covariance" : Except String (List Track)) := by
    rw [List.mapM_cons, updAssignedC3]
    rfl
  have hstate0 : ({ trC3 with missed := 1 } : Track).state 0 = 0 := rfl
  have hstate1 : ({ trC3 with missed := 1 } : Track).state 1 = 0 := rfl
  simp only [Tracker.update, tkC3, List.map_cons, List.map_nil]
  simp only [trC3_predict, hstate0, hstate1]
  simp only [show ([({ trC3 with missed := 1 } : Track)].enum) =
    [((0 : ℕ), ({ trC3 with missed := 1 } : Track))] from rfl]
  simp only [keptPairsC3, hmapM]

theorem dist2_eleven : dist2 ((0 : ℝ), (0 : ℝ)) ((0 : ℝ), (11 : ℝ)) = 11 := by
  have h : (((0 : ℝ), (0 : ℝ)).1 - ((0 : ℝ), (11 : ℝ)).1) ^ 2 +
      (((0 : ℝ), (0 : ℝ)).2 - ((0 : ℝ), (11 : ℝ)).2) ^ 2 = 11 ^ 2 := by norm_num
  rw [dist2, h, Real.sqrt_sq (by norm_num : (0 : ℝ) ≤ 11)]

/-- **C4 (counterexample).** The default `dist_threshold` is 10.0, not 12.0: a
detection at Euclidean distance 11 (≤ 12) from the predicted track position is
*excluded* — the Hungarian pairing (0,0) exists but is discarded because the
gated cost was replaced by the 1e6 sentinel. -/
theorem C4_counterexample :
    mkTracker.dist_threshold = 10 ∧ ((10 : ℝ) ≠ 12) ∧
    dist2 ((0 : ℝ), (0 : ℝ)) ((0 : ℝ), (11 : ℝ)) ≤ 12 ∧
    hungarianPairs [((0 : ℝ), (0 : ℝ))] [((0 : ℝ), (11 : ℝ))] mkTracker.dist_threshold =
      [(0, 0)] ∧
    keptPairs [((0 : ℝ), (0 : ℝ))] [((0 : ℝ), (11 : ℝ))] mkTracker.dist_threshold = [] := by
  have hθ : mkTracker.dist_threshold = 10 := rfl
  have hassign : rowAssignments (List.range 1) (List.range 1) = [[(0, 0)]] := rfl
  have hhung : hungarianPairs [((0 : ℝ), (0 : ℝ))] [((0 : ℝ), (11 : ℝ))] 10 = [(0, 0)] := by
    rw [hungarianPairs, if_neg (by norm_num), linear_sum_assignment]
    simp only [List.length_cons, List.length_nil, if_pos (le_refl 1), hassign,
      List.argmin_singleton, Option.getD_some]
  have hgated : gated_cost [((0 : ℝ), (0 : ℝ))] [((0 : ℝ), (11 : ℝ))] 10 0 0 = 1e6 := by
    simp only [gated_cost, List.getD_cons_zero]
    rw [dist2_eleven, if_pos (by norm_num)]
  refine ⟨hθ, by norm_num, by rw [dist2_eleven]; norm_num, ?_, ?_⟩
  · rw [hθ, hhung]
  · rw [hθ, keptPairs, hhung]
    rw [List.filter_cons_of_neg (by simp only [hgated, decide_eq_true_eq]; norm_num),
      List.filter_nil]

end PassiveRadar

namespace PassiveRadar

/-! ### Clusterer — `src/clustering.py`; DBSCAN itself lives in scikit-learn,
so it is modelled from the spec (§4.5 and the glossary). -/

/-- Squared Euclidean distance between two detection points. -/
def distSq (p q : ℚ × ℚ) : ℚ := (p.1 - q.1) ^ 2 + (p.2 - q.2) ^ 2

/-- Modelled from the spec: the ε-neighbourhood test of DBSCAN (Euclidean).
`eps = none` stands for ε = ∞ (every pair is within reach); `eps = some e`
compares squared distances to stay in ℚ. -/
def withinEps (eps : Option ℚ) (p q : ℚ × ℚ) : Bool :=
  match eps with
  | none => true
  | some e => distSq p q ≤ e ^ 2

/-- Modelled from the spec: point `i` is a core point when at least
`min_samples` points (itself included) lie in its ε-neighbourhood. -/
def isCore (pts : List (ℚ × ℚ)) (eps : Option ℚ) (min_samples : ℕ) (i : ℕ) : Prop :=
  min_samples ≤ (pts.filter fun q => withinEps eps (pts.getD i (0, 0)) q).length

instance (pts : List (ℚ × ℚ)) (eps : Option ℚ) (ms i : ℕ) :
    Decidable (isCore pts eps ms i) := by
  unfold isCore
  infer_instance

/-- Modelled from the spec: one density-reachability sweep — indices reachable
from the current cluster through one of its core points are appended. -/
def expandOnce (pts : List (ℚ × ℚ)) (eps : Option ℚ) (min_samples : ℕ)
    (cur : List ℕ) : List ℕ :=
  cur ++ ((List.range pts.length).filter fun j =>
    j ∉ cur ∧ ∃ i ∈ cur, isCore pts eps min_samples i ∧
      withinEps eps (pts.getD i (0, 0)) (pts.getD j (0, 0)) = true)

/-- Modelled from the spec: the density-reachable closure, with enough fuel to
absorb every point. -/
def expandCluster (pts : List (ℚ × ℚ)) (eps : Option ℚ) (min_samples : ℕ) :
    ℕ → List ℕ → List ℕ
  | 0, cur => cur
  | fuel + 1, cur => expandCluster pts eps min_samples fuel (expandOnce pts eps min_samples cur)

/-- Modelled from the spec: write cluster id `c` on every index of `cluster`
that is still unvisited (−2) or provisionally noise (−1). -/
def assignLabels (labels : List ℤ) (cluster : List ℕ) (c : ℤ) : List ℤ :=
  (List.range labels.length).map fun idx =>
    if idx ∈ cluster ∧ (labels.getD idx 0 = -2 ∨ labels.getD idx 0 = -1) then c
    else labels.getD idx 0

/-- Modelled from the spec: the DBSCAN scan — visit points in order; an
unlabelled core point seeds cluster ids 0, 1, …, expanded to everything
density-reachable; non-core points reachable from no cluster stay noise (−1). -/
def dbscanGo (pts : List (ℚ × ℚ)) (eps : Option ℚ) (min_samples : ℕ) :
    List ℕ → List ℤ → ℤ → List ℤ
  | [], labels, _ => labels
  | i :: rest, labels, c =>
    if labels.getD i 0 ≠ -2 then dbscanGo pts eps min_samples rest labels c
    else if isCore pts eps min_samples i then
      dbscanGo pts eps min_samples rest
        (assignLabels labels (expandCluster pts eps min_samples pts.length [i]) c) (c + 1)
    else dbscanGo pts eps min_samples rest (labels.set i (-1)) c

/-- Modelled from the spec: `cluster_dbscan` — the empty input returns the
empty label array (as in the source), otherwise the DBSCAN labels. -/
def cluster_dbscan (pts : List (ℚ × ℚ)) (eps : Option ℚ) (min_samples : ℕ) : List ℤ :=
  if pts.length = 0 then []
  else dbscanGo pts eps min_samples (List.range pts.length)
    (List.replicate pts.length (-2)) 0

end PassiveRadar

namespace PassiveRadar

theorem getD_replicate_int (n i : ℕ) (a : ℤ) :
    (List.replicate n a).getD i 0 = if i < n then a else 0 := by
  rw [List.getD_eq_getElem?_getD, List.getElem?_replicate]
  split <;> rfl

theorem mem_expandOnce {pts : List (ℚ × ℚ)} {eps : Option ℚ} {ms : ℕ} {cur : List ℕ}
    {x : ℕ} (hx : x ∈ cur) : x ∈ expandOnce pts eps ms cur :=
  List.mem_append_left _ hx

theorem mem_expandCluster {pts : List (ℚ × ℚ)} {eps : Option ℚ} {ms : ℕ} :
    ∀ (fuel : ℕ) (cur : List ℕ), ∀ x ∈ cur, x ∈ expandCluster pts eps ms fuel cur
  | 0, _, _, hx => hx
  | fuel + 1, cur, x, hx => mem_expandCluster fuel _ x (mem_expandOnce hx)

theorem isCore_all (pts : List (ℚ × ℚ)) (h : pts ≠ []) (i : ℕ) : isCore pts none 1 i := by
  rw [isCore]
  have hf : (pts.filter fun q => withinEps none (pts.getD i (0, 0)) q) = pts :=
    List.filter_eq_self.mpr fun a _ => rfl
  rw [hf]
  exact List.length_pos.mpr h

theorem expandOnce_all (pts : List (ℚ × ℚ)) (h : pts ≠ []) (j : ℕ) (hj : j < pts.length) :
    j ∈ expandOnce pts none 1 [0] := by
  by_cases h0 : j ∈ ([0] : List ℕ)
  · exact List.mem_append_left _ h0
  · apply List.mem_append_right
    apply List.mem_filter.mpr
    refine ⟨List.mem_range.mpr hj, ?_⟩
    simp only [decide_eq_true_eq]
    exact ⟨h0, 0, List.mem_cons_self 0 [], isCore_all pts h 0, rfl⟩

theorem expandCluster_all (pts : List (ℚ × ℚ)) (h : pts ≠ []) (m : ℕ) (j : ℕ)
    (hj : j < pts.length) : j ∈ expandCluster pts none 1 (m + 1) [0] := by
  rw [expandCluster]
  exact mem_expandCluster m _ j (expandOnce_all pts h j hj)

theorem assign_all (cluster : List ℕ) (n : ℕ) (hc : ∀ j < n, j ∈ cluster) :
    assignLabels (List.replicate n (-2)) cluster 0 = List.replicate n 0 := by
  rw [assignLabels, List.length_replicate]
  have hcong : ∀ idx ∈ List.range n,
      (if idx ∈ cluster ∧ ((List.replicate n (-2 : ℤ)).getD idx 0 = -2 ∨
          (List.replicate n (-2 : ℤ)).getD idx 0 = -1) then (0 : ℤ)
        else (List.replicate n (-2 : ℤ)).getD idx 0) = Function.const ℕ (0 : ℤ) idx := by
    intro idx hidx
    have hlt : idx < n := List.mem_range.mp hidx
    rw [if_pos ⟨hc idx hlt, Or.inl (by rw [getD_replicate_int, if_pos hlt])⟩]
    rfl
  rw [List.map_congr_left hcong, List.map_const, List.length_range]

theorem dbscanGo_stable (pts : List (ℚ × ℚ)) (eps : Option ℚ) (ms n : ℕ) (c : ℤ) :
    ∀ rest : List ℕ, dbscanGo pts eps ms rest (List.replicate n 0) c = List.replicate n 0
  | [] => rfl
  | i :: rest => by
    rw [dbscanGo, if_pos]
    · exact dbscanGo_stable pts eps ms n c rest
    · rw [getD_replicate_int]
      split <;> decide

/-- **C7.** Modelled from the spec: DBSCAN with `min_samples = 1` and `eps = ∞`
puts every point of a nonempty input into the single cluster 0 — every point
gets the same non-negative label and none is labelled −1 noise. -/
theorem C7_dbscan_single_cluster (pts : List (ℚ × ℚ)) (h : pts ≠ []) :
    cluster_dbscan pts none 1 = List.replicate pts.length 0 := by
  have hn : 0 < pts.length := List.length_pos.mpr h
  obtain ⟨m, hm⟩ : ∃ m, pts.length = m + 1 := ⟨pts.length - 1, by omega⟩
  rw [cluster_dbscan, if_neg (by omega), hm, List.range_succ_eq_map, dbscanGo,
    if_neg (by rw [getD_replicate_int, if_pos (by omega : 0 < m + 1)]; decide),
    if_pos (isCore_all pts h 0)]
  rw [show expandCluster pts none 1 pts.length [0] =
      expandCluster pts none 1 (m + 1) [0] from by rw [hm]]
  rw [assign_all _ (m + 1) fun j hj => expandCluster_all pts h m j (by omega)]
  exact dbscanGo_stable pts none 1 (m + 1) 1 _

/-- Witness for C7 at a concrete input. -/
theorem C7_dbscan_single_cluster_witness :
    cluster_dbscan [(0, 0), (5, 7), (9, 1)] none 1 =
      List.replicate ([(0, 0), (5, 7), (9, 1)] : List (ℚ × ℚ)).length 0 :=
  C7_dbscan_single_cluster [(0, 0), (5, 7), (9, 1)] (by simp)

end PassiveRadar
